import Mathlib

/-
Verification of the onebrc aggregation pipeline (onebrc.cpp).

The C++ source is shallowly embedded over `List Char` (the mapped file's
bytes).  Functions that throw (`digit`, `non_neg_number`, `number`,
`record`, `aggregate`) return `Option`/`Except`.  `int64_t` arithmetic is
modelled as `Int` with explicit two's-complement wraparound at 2^64
(`wrap64`), and `size_t` as `Nat` with explicit `% 2 ^ 64`.
-/

namespace Onebrc

/-- Bytes of a key (a `string_view` into the mapped file). -/
abbrev Key := List Char

--------------------------------------------------------------------------
-- Parsing functions (onebrc.cpp lines 49-93).

/-- Embeds `digit` (lines 49-55): a byte outside `'0'..'9'` throws
`invalid_argument`; otherwise the value `c - '0'` is returned. -/
def digit (c : Char) : Option Int :=
  if c.toNat < '0'.toNat ∨ '9'.toNat < c.toNat then none
  else some ((c.toNat : Int) - ('0'.toNat : Int))

/-- Embeds `non_neg_number` (lines 57-66): a 3-byte token `"d.d"` or a
4-byte token `"dd.d"`; anything else throws. -/
def non_neg_number : List Char → Option Int
  | [a, b, c] =>
      if b = '.' then
        match digit a, digit c with
        | some x, some y => some (x * 10 + y)
        | _, _ => none
      else none
  | [a, b, c, d] =>
      if c = '.' then
        match digit a, digit b, digit d with
        | some x, some y, some z => some (x * 100 + y * 10 + z)
        | _, _, _ => none
      else none
  | _ => none

/-- Embeds `number` (lines 68-75): a leading `'-'` negates the magnitude
parsed from the rest of the token. -/
def number (s : List Char) : Option Int :=
  match s with
  | '-' :: rest => (non_neg_number rest).map Neg.neg
  | _ => non_neg_number s

/-- Index of the first occurrence of `c`, as `string_view::find_first_of`
with start position 0 (`none` plays the role of `npos`). -/
def findIdxFrom : List Char → Char → Option Nat
  | [], _ => none
  | x :: rest, c => if x = c then some 0 else (findIdxFrom rest c).map (· + 1)

/-- Embeds `record` (lines 77-84): split at the first `';'`; the bytes
before it are the key, the bytes after it are parsed by `number`; a line
with no `';'` throws. -/
def record (s : List Char) : Option (Key × Int) :=
  match findIdxFrom s ';' with
  | some i => (number (List.drop (i + 1) s)).map (fun v => (List.take i s, v))
  | none => none

/-- Embeds `first_line` (lines 86-93): split at the first newline; with no
newline the line is the whole range and the remainder is empty. -/
def first_line (s : List Char) : List Char × List Char :=
  match findIdxFrom s '\n' with
  | some i => (List.take i s, List.drop (i + 1) s)
  | none => (s, [])

--------------------------------------------------------------------------
-- Statistics data structure (onebrc.cpp lines 98-125).

/-- Embeds `struct statistics` (lines 98-125): `min`, `max`, `sum` are
`int64_t` and `n` is `size_t`. -/
@[ext]
structure statistics where
  min : Int
  max : Int
  sum : Int
  n : Nat
  deriving DecidableEq, Repr

/-- Two's-complement wraparound of `int64_t` addition results. -/
def wrap64 (x : Int) : Int := (x + 2 ^ 63) % 2 ^ 64 - 2 ^ 63

/-- Embeds the `statistics(int64_t x)` constructor (lines 101-107):
min = max = sum = x, n = 1. -/
def statistics.ofVal (x : Int) : statistics := ⟨x, x, x, 1⟩

/-- Embeds `statistics::update` (lines 109-119): min of mins, max of
maxes, `sum += s.sum` (int64 wraparound), `n += s.n` (size_t wraparound). -/
def statistics.update (a s : statistics) : statistics where
  min := if s.min < a.min then s.min else a.min
  max := if s.max > a.max then s.max else a.max
  sum := wrap64 (a.sum + s.sum)
  n := (a.n + s.n) % 2 ^ 64

/-- Embeds the default member initializers (lines 121-124):
min = `numeric_limits<int64_t>::max()`, max = `numeric_limits<int64_t>::min()`,
sum = 0, n = 0. -/
def statistics.default : statistics := ⟨2 ^ 63 - 1, -(2 ^ 63), 0, 0⟩

/-- States that every field of `s` is representable in its C++ type
(`int64_t` for min/max/sum, `size_t` for n); every `statistics` value the
program builds satisfies this by typing. -/
def statistics.inRange (s : statistics) : Prop :=
  -(2 ^ 63) ≤ s.min ∧ s.min ≤ 2 ^ 63 - 1 ∧
  -(2 ^ 63) ≤ s.max ∧ s.max ≤ 2 ^ 63 - 1 ∧
  -(2 ^ 63) ≤ s.sum ∧ s.sum ≤ 2 ^ 63 - 1 ∧ s.n < 2 ^ 64

instance (s : statistics) : Decidable s.inRange := by
  unfold statistics.inRange; infer_instance

--------------------------------------------------------------------------
-- Hash table / ordered map of per-key statistics (lines 197-198).

/-- A `unordered_map<string_view, statistics>` (or `map<...>`) modelled as
an association list with at most one entry per key. -/
abbrev Table := List (Key × statistics)

/-- Lookup of a key in a table (`find`). -/
def lookupStat : Table → Key → Option statistics
  | [], _ => none
  | (k', s) :: rest, k => if k' = k then some s else lookupStat rest k

/-- Embeds `result[name].update(value)` (line 207): `operator[]`
default-constructs an absent entry, then `update` folds in
`statistics(value)`. -/
def tableUpdate (t : Table) (k : Key) (v : Int) : Table :=
  match t with
  | [] => [(k, statistics.default.update (statistics.ofVal v))]
  | (k', s) :: rest =>
      if k' = k then (k', s.update (statistics.ofVal v)) :: rest
      else (k', s) :: tableUpdate rest k v

--------------------------------------------------------------------------
-- Chunk aggregation (aggregate, lines 200-214).

/-- Embeds the `while (!input.empty())` loop of `aggregate` (lines
204-209).  The loop is given fuel; `first_line` strictly shrinks the
input, so fuel `input.length` always suffices. -/
def aggregateGo : Nat → List Char → Table → Option Table
  | _, [], t => some t
  | 0, _ :: _, _ => none
  | fuel + 1, c :: cs, t =>
      let p := first_line (c :: cs)
      match record p.1 with
      | none => none
      | some (k, v) => aggregateGo fuel p.2 (tableUpdate t k v)

/-- Embeds `aggregate` (lines 200-214): fold every record of the chunk
into an initially empty local table. -/
def aggregate (input : List Char) : Option Table :=
  aggregateGo input.length input []

/-- The list of `(key, value)` records `aggregate` would extract from the
input, in order (`none` when some line fails to parse). -/
def recsOf : Nat → List Char → Option (List (Key × Int))
  | _, [] => some []
  | 0, _ :: _ => none
  | fuel + 1, c :: cs =>
      let p := first_line (c :: cs)
      match record p.1 with
      | none => none
      | some r => (recsOf fuel p.2).map (fun rs => r :: rs)

/-- Records of an input, with the canonical sufficient fuel. -/
def recs (input : List Char) : Option (List (Key × Int)) :=
  recsOf input.length input

/-- Rebuilds a table from a record list exactly as `aggregate`'s loop
does. -/
def buildTable (rs : List (Key × Int)) : Table :=
  rs.foldl (fun t p => tableUpdate t p.1 p.2) []

--------------------------------------------------------------------------
-- The reducer loop of main (lines 242-252).

/-- Embeds one iteration of the reducer loop (lines 245-251): if the key
is already present in the global table, `update` merges the statistics;
otherwise the entry is inserted. -/
def reduceEntry (g : Table) (e : Key × statistics) : Table :=
  match g with
  | [] => [e]
  | (k', s) :: rest =>
      if k' = e.1 then (k', s.update e.2) :: rest
      else (k', s) :: reduceEntry rest e

/-- Embeds the whole reducer: fold every local-table entry into the
initially empty global table. -/
def reduce (es : List (Key × statistics)) : Table :=
  es.foldl reduceEntry []

--------------------------------------------------------------------------
-- The partition loop of main (lines 228-240).

/-- Embeds `string_view::find_first_of(c, pos)`: first index `≥ pos`
holding `c`, `none` for `npos`. -/
def findFrom (s : List Char) (c : Char) (pos : Nat) : Option Nat :=
  (findIdxFrom (List.drop pos s) c).map (· + pos)

/-- Embeds `input.find_first_of('\n', chunk_size) + 1` (line 234).  When
the search fails it returns `npos = SIZE_MAX`, and the unsigned `+ 1`
wraps around to 0. -/
def chunkEnd (input : List Char) (chunkSize : Nat) : Nat :=
  match findFrom input '\n' chunkSize with
  | some i => i + 1
  | none => 0

/-- Embeds the partition loop (lines 233-238) plus the final chunk (line
240): `k` is the number of loop iterations still to run (`n_cpus - 1`
initially), `chunkSize` is fixed at `input.size() / n_cpus` up front. -/
def partitionGo : Nat → List Char → Nat → List (List Char)
  | 0, input, _ => [input]
  | k + 1, input, chunkSize =>
      let ce := chunkEnd input chunkSize
      List.take ce input :: partitionGo k (List.drop ce input) chunkSize

/-- The `W` chunks `main` hands to the `W` workers. -/
def partition (input : List Char) (w : Nat) : List (List Char) :=
  partitionGo (w - 1) input (input.length / w)

--------------------------------------------------------------------------
-- Derived notions used to state the claims.

/-- Merge of two optional statistics: the reducer's present/absent case
split, lifted to `Option`. -/
def mergeOpt : Option statistics → Option statistics → Option statistics
  | a, none => a
  | none, some s => some s
  | some t, some s => some (t.update s)

/-- Values carried by the records of `rs` whose key is `k`, in order. -/
def valuesOf (k : Key) (rs : List (Key × Int)) : List Int :=
  rs.filterMap (fun p => if p.1 = k then some p.2 else none)

/-- Statistics carried by the entries of `es` whose key is `k`, in
order. -/
def statsOf (k : Key) (es : List (Key × statistics)) : List statistics :=
  es.filterMap (fun p => if p.1 = k then some p.2 else none)

/-- One `result[name].update(value)` step of `aggregate`, seen through the
optional per-key entry it touches. -/
def entryStep (o : Option statistics) (v : Int) : Option statistics :=
  some ((o.getD statistics.default).update (statistics.ofVal v))

/-- The optional statistics a single observed value contributes. -/
def embed (v : Int) : Option statistics := some (statistics.ofVal v)

/-- Value of a decimal digit byte. -/
def dval (c : Char) : Int := (c.toNat : Int) - ('0'.toNat : Int)

/-- Value of a big-endian string of decimal digit bytes. -/
def digitsVal (ds : List Char) : Int :=
  ds.foldl (fun a c => a * 10 + dval c) 0

/-- Decimal digit byte, as a proposition. -/
def isDigitChar (c : Char) : Prop := '0'.toNat ≤ c.toNat ∧ c.toNat ≤ '9'.toNat

instance (c : Char) : Decidable (isDigitChar c) := by
  unfold isDigitChar; infer_instance

/-- The fixed-decimal grammar of the spec: `['-'] D+ '.' D` with exactly
one or two integer digits and exactly one fractional digit. -/
def specGrammar (s : List Char) : Prop :=
  ∃ (neg : Bool) (ds : List Char) (f : Char),
    (ds.length = 1 ∨ ds.length = 2) ∧ (∀ c ∈ ds, isDigitChar c) ∧ isDigitChar f ∧
    s = (if neg then ['-'] else []) ++ ds ++ ['.', f]

--------------------------------------------------------------------------
-- Mapped byte source construction (lines 135-192).

/-- Embeds the `file_descr` constructor (lines 138-144): `open(2)` returns
-1 on failure, which the code checks, throwing `strerror(errno)`. -/
def file_descr_new (openRet : Int) (errText : String) : Except String Int :=
  if openRet = -1 then Except.error errText else Except.ok openRet

/-- Embeds the `mmap_file` constructor (lines 161-172).  `fstat` is
checked against -1 and throws `strerror(errno)`.  The `mmap` return value
is checked with `if (!data_)`, i.e. against the null pointer 0.  Modelled
from the spec and POSIX for the part outside the source: `mmap(2)` reports
failure by returning `MAP_FAILED = (void *) -1`, never the null
pointer. -/
def mmap_file_new (fstatRet : Int) (fileSize : Nat) (mmapRet : Int) (errText : String) :
    Except String (Int × Nat) :=
  if fstatRet = -1 then Except.error errText
  else if mmapRet = 0 then Except.error errText
  else Except.ok (mmapRet, fileSize)

--------------------------------------------------------------------------
-- Algebra of statistics::update.

theorem statistics.update_comm (a b : statistics) : a.update b = b.update a := by
  ext <;> simp only [statistics.update, wrap64] <;> (try split_ifs) <;> omega

theorem statistics.update_assoc (a b c : statistics) :
    (a.update b).update c = a.update (b.update c) := by
  ext <;> simp only [statistics.update, wrap64] <;> (try split_ifs) <;> omega

theorem statistics.default_update (s : statistics) (h : s.inRange) :
    statistics.default.update s = s := by
  obtain ⟨h1, h2, h3, h4, h5, h6, h7⟩ := h
  ext <;> simp only [statistics.update, statistics.default, wrap64] <;>
    (try split_ifs) <;> omega

theorem statistics.update_default (s : statistics) (h : s.inRange) :
    s.update statistics.default = s := by
  obtain ⟨h1, h2, h3, h4, h5, h6, h7⟩ := h
  ext <;> simp only [statistics.update, statistics.default, wrap64] <;>
    (try split_ifs) <;> omega

theorem statistics.ofVal_inRange (v : Int) (h1 : -(2 ^ 63) ≤ v) (h2 : v ≤ 2 ^ 63 - 1) :
    (statistics.ofVal v).inRange := by
  refine ⟨h1, h2, h1, h2, h1, h2, ?_⟩
  norm_num [statistics.ofVal]

theorem statistics.default_update_ofVal (v : Int) (h1 : -(2 ^ 63) ≤ v)
    (h2 : v ≤ 2 ^ 63 - 1) :
    statistics.default.update (statistics.ofVal v) = statistics.ofVal v :=
  statistics.default_update _ (statistics.ofVal_inRange v h1 h2)

--------------------------------------------------------------------------
-- mergeOpt is a commutative monoid with identity none.

theorem mergeOpt_none_left (a : Option statistics) : mergeOpt none a = a := by
  cases a <;> rfl

theorem mergeOpt_none_right (a : Option statistics) : mergeOpt a none = a := by
  cases a <;> rfl

theorem mergeOpt_comm (a b : Option statistics) : mergeOpt a b = mergeOpt b a := by
  cases a <;> cases b <;> simp [mergeOpt, statistics.update_comm]

theorem mergeOpt_assoc (a b c : Option statistics) :
    mergeOpt (mergeOpt a b) c = mergeOpt a (mergeOpt b c) := by
  cases a <;> cases b <;> cases c <;> simp [mergeOpt, statistics.update_assoc]

theorem foldl_mergeOpt_out (l : List (Option statistics)) :
    ∀ a, l.foldl mergeOpt a = mergeOpt a (l.foldl mergeOpt none) := by
  induction l with
  | nil => intro a; simp [mergeOpt_none_right]
  | cons x l ih =>
      intro a
      simp only [List.foldl_cons]
      rw [ih (mergeOpt a x), ih (mergeOpt none x), mergeOpt_none_left, mergeOpt_assoc]

theorem foldl_mergeOpt_perm {l1 l2 : List (Option statistics)} (h : l1.Perm l2) :
    ∀ a, l1.foldl mergeOpt a = l2.foldl mergeOpt a := by
  induction h with
  | nil => intro a; rfl
  | cons x _ ih => intro a; simp only [List.foldl_cons]; exact ih _
  | swap x y l =>
      intro a
      simp only [List.foldl_cons]
      rw [mergeOpt_assoc, mergeOpt_assoc, mergeOpt_comm y x]
  | trans _ _ ih1 ih2 => intro a; rw [ih1 a, ih2 a]

theorem foldl_mergeOpt_append (l1 l2 : List (Option statistics)) (a : Option statistics) :
    (l1 ++ l2).foldl mergeOpt a = mergeOpt (l1.foldl mergeOpt a) (l2.foldl mergeOpt none) := by
  rw [List.foldl_append, foldl_mergeOpt_out]

--------------------------------------------------------------------------
-- Digit and number parsing lemmas.

theorem digit_eq_some {c : Char} {x : Int} (h : digit c = some x) :
    isDigitChar c ∧ x = dval c := by
  unfold digit at h
  split at h
  · exact Option.noConfusion h
  · rename_i hc
    injection h with h
    exact ⟨by unfold isDigitChar; omega, h.symm⟩

theorem digit_of_isDigitChar {c : Char} (h : isDigitChar c) : digit c = some (dval c) := by
  unfold isDigitChar at h
  unfold digit dval
  rw [if_neg (by omega)]

theorem dval_bounds {c : Char} (h : isDigitChar c) : 0 ≤ dval c ∧ dval c ≤ 9 := by
  unfold isDigitChar at h
  have h0 : '0'.toNat = 48 := rfl
  have h9 : '9'.toNat = 57 := rfl
  unfold dval
  omega

theorem non_neg_number_shape {s : List Char} {v : Int} (h : non_neg_number s = some v) :
    (∃ a b, s = [a, '.', b] ∧ isDigitChar a ∧ isDigitChar b ∧ v = dval a * 10 + dval b) ∨
    (∃ a b c, s = [a, b, '.', c] ∧ isDigitChar a ∧ isDigitChar b ∧ isDigitChar c ∧
      v = dval a * 100 + dval b * 10 + dval c) := by
  match s with
  | [] => exact Option.noConfusion h
  | [a] => exact Option.noConfusion h
  | [a, b] => exact Option.noConfusion h
  | [a, b, c] =>
      left
      simp only [non_neg_number] at h
      split at h
      · rename_i hb
        subst hb
        cases hda : digit a with
        | none => rw [hda] at h; exact Option.noConfusion h
        | some x =>
            cases hdc : digit c with
            | none => rw [hda, hdc] at h; exact Option.noConfusion h
            | some y =>
                rw [hda, hdc] at h
                injection h with h
                obtain ⟨ha, hx⟩ := digit_eq_some hda
                obtain ⟨hc, hy⟩ := digit_eq_some hdc
                exact ⟨a, c, rfl, ha, hc, by omega⟩
      · exact Option.noConfusion h
  | [a, b, c, d] =>
      right
      simp only [non_neg_number] at h
      split at h
      · rename_i hc
        subst hc
        cases hda : digit a with
        | none => rw [hda] at h; exact Option.noConfusion h
        | some x =>
            cases hdb : digit b with
            | none => rw [hda, hdb] at h; exact Option.noConfusion h
            | some y =>
                cases hdd : digit d with
                | none => rw [hda, hdb, hdd] at h; exact Option.noConfusion h
                | some z =>
                    rw [hda, hdb, hdd] at h
                    injection h with h
                    obtain ⟨ha, hx⟩ := digit_eq_some hda
                    obtain ⟨hb, hy⟩ := digit_eq_some hdb
                    obtain ⟨hd, hz⟩ := digit_eq_some hdd
                    exact ⟨a, b, d, rfl, ha, hb, hd, by omega⟩
      · exact Option.noConfusion h
  | a :: b :: c :: d :: e :: rest => exact Option.noConfusion h

theorem non_neg_number_range {s : List Char} {v : Int} (h : non_neg_number s = some v) :
    0 ≤ v ∧ v ≤ 999 := by
  rcases non_neg_number_shape h with ⟨a, b, _, ha, hb, hv⟩ | ⟨a, b, c, _, ha, hb, hc, hv⟩
  · have := dval_bounds ha
    have := dval_bounds hb
    omega
  · have := dval_bounds ha
    have := dval_bounds hb
    have := dval_bounds hc
    omega

theorem number_range {s : List Char} {v : Int} (h : number s = some v) :
    -999 ≤ v ∧ v ≤ 999 := by
  unfold number at h
  split at h
  · rename_i rest
    cases hn : non_neg_number rest with
    | none => rw [hn] at h; exact Option.noConfusion h
    | some w =>
        rw [hn] at h
        injection h with h
        have := non_neg_number_range hn
        omega
  · have := non_neg_number_range h
    omega

--------------------------------------------------------------------------
-- findIdxFrom and splitting lemmas.

theorem findIdxFrom_not_mem {k : List Char} {c : Char} (h : c ∉ k) :
    findIdxFrom k c = none := by
  induction k with
  | nil => rfl
  | cons x xs ih =>
      simp only [findIdxFrom]
      rw [if_neg (by simp at h; exact fun hxc => h.1 hxc.symm)]
      rw [ih (by simp at h; exact h.2)]
      rfl

theorem findIdxFrom_append {k : List Char} {c : Char} (h : c ∉ k) (rest : List Char) :
    findIdxFrom (k ++ c :: rest) c = some k.length := by
  induction k with
  | nil => simp [findIdxFrom]
  | cons x xs ih =>
      simp only [List.cons_append, findIdxFrom]
      rw [if_neg (by simp at h; exact fun hxc => h.1 hxc.symm)]
      rw [show xs.append (c :: rest) = xs ++ c :: rest from rfl]
      rw [ih (by simp at h; exact h.2)]
      simp

theorem findIdxFrom_sound {s : List Char} {c : Char} {i : Nat}
    (h : findIdxFrom s c = some i) : i < s.length ∧ s[i]? = some c := by
  induction s generalizing i with
  | nil => exact Option.noConfusion h
  | cons x xs ih =>
      simp only [findIdxFrom] at h
      split at h
      · rename_i hxc
        injection h with h
        subst h
        simp [hxc]
      · cases hf : findIdxFrom xs c with
        | none => rw [hf] at h; exact Option.noConfusion h
        | some j =>
            rw [hf] at h
            injection h with h
            subst h
            obtain ⟨hj, hget⟩ := ih hf
            constructor
            · simpa using Nat.add_lt_add_right hj 1
            · simpa using hget

theorem take_drop_append (k : List Char) (c : Char) (rest : List Char) :
    List.take k.length (k ++ c :: rest) = k ∧
    List.drop (k.length + 1) (k ++ c :: rest) = rest := by
  induction k with
  | nil => simp
  | cons x xs ih => simpa using ih

/-- first_line on a range whose first line is explicit. -/
theorem first_line_append {l : List Char} (h : '\n' ∉ l) (rest : List Char) :
    first_line (l ++ '\n' :: rest) = (l, rest) := by
  simp only [first_line, findIdxFrom_append h rest]
  rw [(take_drop_append l '\n' rest).1, (take_drop_append l '\n' rest).2]

/-- first_line on a range containing no newline. -/
theorem first_line_no_newline {l : List Char} (h : '\n' ∉ l) :
    first_line l = (l, []) := by
  simp only [first_line, findIdxFrom_not_mem h]

/-- record on a line whose key and value token are explicit. -/
theorem record_append {k : List Char} (h : ';' ∉ k) (rest : List Char) :
    record (k ++ ';' :: rest) = (number rest).map (fun v => (k, v)) := by
  simp only [record, findIdxFrom_append h rest]
  rw [(take_drop_append k ';' rest).1, (take_drop_append k ';' rest).2]

/-- record on a line with no separator. -/
theorem record_no_semi {s : List Char} (h : ';' ∉ s) : record s = none := by
  simp only [record, findIdxFrom_not_mem h]

--------------------------------------------------------------------------
-- The aggregate loop, seen as a fold over the record list of the input.

theorem first_line_snd_length {s : List Char} (h : s ≠ []) :
    (first_line s).2.length < s.length := by
  unfold first_line
  cases hf : findIdxFrom s '\n' with
  | none => simpa using List.length_pos.mpr h
  | some i =>
      have := List.length_pos.mpr h
      simp only [List.length_drop]
      omega

theorem first_line_snd_getLast {s : List Char} (h : s.getLast? = some '\n')
    (h2 : (first_line s).2 ≠ []) : (first_line s).2.getLast? = some '\n' := by
  cases hf : findIdxFrom s '\n' with
  | none => simp only [first_line, hf] at h2; simp at h2
  | some i =>
      simp only [first_line, hf] at h2 ⊢
      conv at h => rw [← List.take_append_drop (i + 1) s]
      rwa [List.getLast?_append_of_ne_nil _ h2] at h

theorem recsOf_eq_recs : ∀ (n : Nat) (input : List Char) (fuel : Nat),
    input.length ≤ n → input.length ≤ fuel → recsOf fuel input = recs input := by
  intro n
  induction n with
  | zero =>
      intro input fuel hn _
      have hn0 : input = [] := List.length_eq_zero.mp (Nat.le_zero.mp hn)
      subst hn0
      cases fuel <;> rfl
  | succ m ih =>
      intro input fuel hn hfuel
      cases input with
      | nil => cases fuel <;> rfl
      | cons c cs =>
          cases fuel with
          | zero => simp at hfuel
          | succ f =>
              have hlt : (first_line (c :: cs)).2.length < (c :: cs).length :=
                first_line_snd_length (by simp)
              simp only [List.length_cons] at hn hfuel hlt
              unfold recs
              simp only [List.length_cons]
              simp only [recsOf]
              rw [ih (first_line (c :: cs)).2 f (by omega) (by omega),
                  ih (first_line (c :: cs)).2 cs.length (by omega) (by omega)]

theorem aggregateGo_eq_recsOf (fuel : Nat) : ∀ (input : List Char) (t : Table),
    aggregateGo fuel input t =
      (recsOf fuel input).map (fun rs => rs.foldl (fun t p => tableUpdate t p.1 p.2) t) := by
  induction fuel with
  | zero => intro input t; cases input <;> rfl
  | succ f ih =>
      intro input t
      cases input with
      | nil => rfl
      | cons c cs =>
          simp only [aggregateGo, recsOf]
          cases hr : record (first_line (c :: cs)).1 with
          | none => rfl
          | some r =>
              obtain ⟨k, v⟩ := r
              dsimp only
              rw [ih]
              cases recsOf f (first_line (c :: cs)).2 <;> simp

theorem aggregate_eq_recs (input : List Char) :
    aggregate input = (recs input).map buildTable := by
  unfold aggregate buildTable recs
  rw [aggregateGo_eq_recsOf]

theorem recs_cons_unfold {s : List Char} (h : s ≠ []) :
    recs s = match record (first_line s).1 with
      | none => none
      | some r => (recs (first_line s).2).map (fun rs => r :: rs) := by
  cases s with
  | nil => exact absurd rfl h
  | cons c cs =>
      have hlt : (first_line (c :: cs)).2.length < (c :: cs).length :=
        first_line_snd_length (by simp)
      unfold recs
      simp only [List.length_cons]
      simp only [recsOf]
      rw [recsOf_eq_recs (first_line (c :: cs)).2.length (first_line (c :: cs)).2 cs.length
        (le_refl _) (by simp only [List.length_cons] at hlt; omega)]
      rfl

theorem findIdxFrom_append_left {A : List Char} {c : Char} (h : c ∈ A) (B : List Char) :
    findIdxFrom (A ++ B) c = findIdxFrom A c := by
  induction A with
  | nil => simp at h
  | cons x xs ih =>
      simp only [List.cons_append, findIdxFrom, List.append_eq]
      by_cases hx : x = c
      · simp [hx]
      · rw [if_neg hx, if_neg hx,
          ih ((List.mem_cons.mp h).resolve_left (fun e => hx e.symm))]

theorem findIdxFrom_isSome_of_mem {A : List Char} {c : Char} (h : c ∈ A) :
    (findIdxFrom A c).isSome := by
  induction A with
  | nil => simp at h
  | cons x xs ih =>
      simp only [findIdxFrom]
      by_cases hx : x = c
      · simp [hx]
      · rw [if_neg hx]
        have := ih ((List.mem_cons.mp h).resolve_left (fun e => hx e.symm))
        cases hf : findIdxFrom xs c with
        | none => rw [hf] at this; simp at this
        | some j => simp

theorem first_line_append_left {A : List Char} (h : '\n' ∈ A) (B : List Char) :
    first_line (A ++ B) = ((first_line A).1, (first_line A).2 ++ B) := by
  unfold first_line
  rw [findIdxFrom_append_left h B]
  cases hf : findIdxFrom A '\n' with
  | none =>
      have := findIdxFrom_isSome_of_mem h
      rw [hf] at this
      simp at this
  | some i =>
      obtain ⟨hi, _⟩ := findIdxFrom_sound hf
      simp only
      rw [List.take_append_of_le_length (by omega),
          List.drop_append_of_le_length (by omega)]

theorem recs_append {B : List Char} : ∀ (n : Nat) (A : List Char), A.length ≤ n →
    (A = [] ∨ A.getLast? = some '\n') →
    recs (A ++ B) = (recs A).bind (fun x => (recs B).map (fun y => x ++ y)) := by
  intro n
  induction n with
  | zero =>
      intro A hn _
      have hn0 : A = [] := List.length_eq_zero.mp (Nat.le_zero.mp hn)
      subst hn0
      have h0 : recs ([] : List Char) = some [] := rfl
      simp only [List.nil_append, h0, Option.some_bind]
      cases hB : recs B <;> simp [hB]
  | succ m ih =>
      intro A hn halign
      rcases halign with hA | hA
      · subst hA
        have h0 : recs ([] : List Char) = some [] := rfl
        simp only [List.nil_append, h0, Option.some_bind]
        cases hB : recs B <;> simp [hB]
      · have hAne : A ≠ [] := by
          intro hc
          rw [hc] at hA
          simp at hA
        have hmem : '\n' ∈ A := List.mem_of_getLast?_eq_some hA
        have hfl := first_line_append_left hmem B
        have hABne : A ++ B ≠ [] := by
          simp [hAne]
        have hlt : (first_line A).2.length < A.length := first_line_snd_length hAne
        rw [recs_cons_unfold hABne, hfl]
        rw [recs_cons_unfold hAne]
        simp only
        cases hr : record (first_line A).1 with
        | none => rfl
        | some r =>
            have halign2 : (first_line A).2 = [] ∨ (first_line A).2.getLast? = some '\n' := by
              by_cases h2 : (first_line A).2 = []
              · exact Or.inl h2
              · exact Or.inr (first_line_snd_getLast hA h2)
            rw [ih (first_line A).2 (by omega) halign2]
            cases h1 : recs (first_line A).2 <;> cases h2 : recs B <;> simp

theorem recs_flatten_some : ∀ (cs : List (List Char)) (RS : List (Key × Int)),
    (∀ c ∈ cs.dropLast, c = [] ∨ c.getLast? = some '\n') →
    recs cs.flatten = some RS →
    ∃ rss : List (List (Key × Int)),
      List.Forall₂ (fun c rs => recs c = some rs) cs rss ∧ RS = rss.flatten := by
  intro cs
  induction cs with
  | nil =>
      intro RS _ h
      refine ⟨[], List.Forall₂.nil, ?_⟩
      simp only [List.flatten_nil] at h ⊢
      injection h with h
      exact h.symm
  | cons c cs ih =>
      intro RS halign h
      cases cs with
      | nil =>
          refine ⟨[RS], List.Forall₂.cons ?_ List.Forall₂.nil, by simp⟩
          simpa using h
      | cons c2 cs2 =>
          have hc : c = [] ∨ c.getLast? = some '\n' := by
            apply halign
            simp [List.dropLast]
          rw [List.flatten_cons, recs_append c.length c (le_refl _) hc] at h
          cases h1 : recs c with
          | none => rw [h1] at h; exact Option.noConfusion h
          | some rs1 =>
              rw [h1] at h
              cases h2 : recs (c2 :: cs2).flatten with
              | none => rw [h2] at h; simp at h
              | some RS2 =>
                  rw [h2] at h
                  simp only [Option.some_bind, Option.map_some] at h
                  injection h with h
                  obtain ⟨rss2, hF, hRS2⟩ := ih RS2 (by
                    intro x hx
                    apply halign
                    simp only [List.dropLast_cons_of_ne_nil (by simp : c2 :: cs2 ≠ [])]
                    exact List.mem_cons_of_mem c hx) (by rw [List.flatten_cons]; exact h2)
                  refine ⟨rs1 :: rss2, List.Forall₂.cons h1 hF, ?_⟩
                  rw [List.flatten_cons, ← hRS2, ← h]

theorem record_val_range {l : List Char} {k : Key} {v : Int}
    (h : record l = some (k, v)) : -999 ≤ v ∧ v ≤ 999 := by
  cases hf : findIdxFrom l ';' with
  | none => exact Option.noConfusion (by simp only [record, hf] at h; exact h)
  | some i =>
      simp only [record, hf] at h
      cases hn : number (List.drop (i + 1) l) with
      | none => rw [hn] at h; exact Option.noConfusion h
      | some w =>
          rw [hn] at h
          injection h with h
          have h1 := number_range hn
          have h2 : w = v := congrArg Prod.snd h
          omega

theorem recs_val_range : ∀ (n : Nat) (input : List Char) (rs : List (Key × Int)),
    input.length ≤ n → recs input = some rs →
    ∀ p ∈ rs, -999 ≤ p.2 ∧ p.2 ≤ 999 := by
  intro n
  induction n with
  | zero =>
      intro input rs hn h
      have hn0 : input = [] := List.length_eq_zero.mp (Nat.le_zero.mp hn)
      subst hn0
      injection h with h
      subst h
      intro p hp
      simp at hp
  | succ m ih =>
      intro input rs hn h
      cases hin : input with
      | nil =>
          subst hin
          injection h with h
          subst h
          intro p hp
          simp at hp
      | cons c cs =>
          subst hin
          rw [recs_cons_unfold (by simp)] at h
          cases hr : record (first_line (c :: cs)).1 with
          | none => rw [hr] at h; exact Option.noConfusion h
          | some r =>
              obtain ⟨rk, rv⟩ := r
              rw [hr] at h
              cases h2 : recs (first_line (c :: cs)).2 with
              | none => rw [h2] at h; exact Option.noConfusion h
              | some rs2 =>
                  rw [h2] at h
                  injection h with h
                  subst h
                  have hlt : (first_line (c :: cs)).2.length < (c :: cs).length :=
                    first_line_snd_length (by simp)
                  simp only [List.length_cons] at hn hlt
                  intro p hp
                  rcases List.mem_cons.mp hp with hp | hp
                  · subst hp
                    simpa using record_val_range hr
                  · exact ih (first_line (c :: cs)).2 rs2 (by omega) h2 p hp

theorem recs_length_le : ∀ (n : Nat) (input : List Char) (rs : List (Key × Int)),
    input.length ≤ n → recs input = some rs → rs.length ≤ input.length := by
  intro n
  induction n with
  | zero =>
      intro input rs hn h
      have hn0 : input = [] := List.length_eq_zero.mp (Nat.le_zero.mp hn)
      subst hn0
      injection h with h
      subst h
      simp
  | succ m ih =>
      intro input rs hn h
      cases hin : input with
      | nil =>
          subst hin
          injection h with h
          subst h
          simp
      | cons c cs =>
          subst hin
          rw [recs_cons_unfold (by simp)] at h
          cases hr : record (first_line (c :: cs)).1 with
          | none => rw [hr] at h; exact Option.noConfusion h
          | some r =>
              rw [hr] at h
              cases h2 : recs (first_line (c :: cs)).2 with
              | none => rw [h2] at h; exact Option.noConfusion h
              | some rs2 =>
                  rw [h2] at h
                  injection h with h
                  subst h
                  have hlt : (first_line (c :: cs)).2.length < (c :: cs).length :=
                    first_line_snd_length (by simp)
                  simp only [List.length_cons] at hn hlt ⊢
                  have := ih (first_line (c :: cs)).2 rs2 (by omega) h2
                  omega

--------------------------------------------------------------------------
-- Per-key view of tableUpdate / reduceEntry folds.

theorem lookup_tableUpdate (t : Table) (k0 : Key) (v : Int) (k : Key) :
    lookupStat (tableUpdate t k0 v) k =
      if k0 = k then entryStep (lookupStat t k) v else lookupStat t k := by
  induction t with
  | nil =>
      by_cases h : k0 = k <;> simp [tableUpdate, lookupStat, entryStep, h]
  | cons e rest ih =>
      obtain ⟨k1, s⟩ := e
      by_cases h1 : k1 = k0
      · subst h1
        by_cases h2 : k1 = k
        · subst h2
          simp [tableUpdate, lookupStat, entryStep]
        · simp [tableUpdate, lookupStat, h2]
      · have h1x : ¬k0 = k1 := fun e2 => h1 e2.symm
        by_cases h2 : k1 = k
        · subst h2
          simp [tableUpdate, lookupStat, h1, h1x]
        · simp [tableUpdate, lookupStat, h1, h2, ih]

theorem lookup_reduceEntry (g : Table) (e : Key × statistics) (k : Key) :
    lookupStat (reduceEntry g e) k =
      if e.1 = k then mergeOpt (lookupStat g k) (some e.2) else lookupStat g k := by
  obtain ⟨k0, s0⟩ := e
  induction g with
  | nil =>
      by_cases h : k0 = k <;> simp [reduceEntry, lookupStat, mergeOpt, h]
  | cons e1 rest ih =>
      obtain ⟨k1, s⟩ := e1
      by_cases h1 : k1 = k0
      · subst h1
        by_cases h2 : k1 = k
        · subst h2
          simp [reduceEntry, lookupStat, mergeOpt]
        · simp [reduceEntry, lookupStat, h2]
      · have h1x : ¬k0 = k1 := fun e2 => h1 e2.symm
        by_cases h2 : k1 = k
        · subst h2
          simp [reduceEntry, lookupStat, mergeOpt, h1, h1x]
        · simp [reduceEntry, lookupStat, h1, h2, ih]

theorem valuesOf_cons (k : Key) (p : Key × Int) (rs : List (Key × Int)) :
    valuesOf k (p :: rs) =
      if p.1 = k then p.2 :: valuesOf k rs else valuesOf k rs := by
  by_cases h : p.1 = k <;> simp [valuesOf, List.filterMap_cons, h]

theorem statsOf_cons (k : Key) (e : Key × statistics) (es : List (Key × statistics)) :
    statsOf k (e :: es) =
      if e.1 = k then e.2 :: statsOf k es else statsOf k es := by
  by_cases h : e.1 = k <;> simp [statsOf, List.filterMap_cons, h]

theorem lookup_foldTable (rs : List (Key × Int)) : ∀ (t : Table) (k : Key),
    lookupStat (rs.foldl (fun t p => tableUpdate t p.1 p.2) t) k =
      (valuesOf k rs).foldl entryStep (lookupStat t k) := by
  induction rs with
  | nil => intro t k; rfl
  | cons p rs ih =>
      intro t k
      rw [List.foldl_cons, ih, valuesOf_cons, lookup_tableUpdate]
      by_cases h : p.1 = k <;> simp [h]

theorem lookup_foldReduce (es : List (Key × statistics)) : ∀ (g : Table) (k : Key),
    lookupStat (es.foldl reduceEntry g) k =
      ((statsOf k es).map some).foldl mergeOpt (lookupStat g k) := by
  induction es with
  | nil => intro g k; rfl
  | cons e es ih =>
      intro g k
      rw [List.foldl_cons, ih, statsOf_cons, lookup_reduceEntry]
      by_cases h : e.1 = k <;> simp [h]

theorem entryStep_fold_some (vs : List Int) : ∀ (s : statistics),
    vs.foldl entryStep (some s) = (vs.map embed).foldl mergeOpt (some s) := by
  induction vs with
  | nil => intro s; rfl
  | cons v vs ih =>
      intro s
      rw [List.foldl_cons, List.map_cons, List.foldl_cons]
      have h1 : entryStep (some s) v = some (s.update (statistics.ofVal v)) := rfl
      have h2 : mergeOpt (some s) (embed v) = some (s.update (statistics.ofVal v)) := rfl
      rw [h1, h2, ih]

theorem entryStep_fold_none (vs : List Int)
    (hvs : ∀ v ∈ vs, -(2 ^ 63) ≤ v ∧ v ≤ 2 ^ 63 - 1) :
    vs.foldl entryStep none = (vs.map embed).foldl mergeOpt none := by
  cases vs with
  | nil => rfl
  | cons v vs =>
      rw [List.foldl_cons, List.map_cons, List.foldl_cons]
      have hv := hvs v (by simp)
      have h1 : entryStep none v = some (statistics.ofVal v) := by
        unfold entryStep
        simp only [Option.getD_none]
        rw [statistics.default_update_ofVal v hv.1 hv.2]
      have h2 : mergeOpt none (embed v) = some (statistics.ofVal v) := rfl
      rw [h1, h2, entryStep_fold_some]

--------------------------------------------------------------------------
-- Counting: the n field of a per-key fold is the number of observations.

theorem fold_embed_n (vs : List Int) : ∀ (s : statistics), s.n + vs.length < 2 ^ 64 →
    ∃ s2, (vs.map embed).foldl mergeOpt (some s) = some s2 ∧ s2.n = s.n + vs.length := by
  induction vs with
  | nil => intro s _; exact ⟨s, rfl, by simp⟩
  | cons v vs ih =>
      intro s hlt
      rw [List.map_cons, List.foldl_cons]
      have h1 : mergeOpt (some s) (embed v) = some (s.update (statistics.ofVal v)) := rfl
      have h2 : (s.update (statistics.ofVal v)).n = s.n + 1 := by
        simp only [statistics.update, statistics.ofVal, List.length_cons] at hlt ⊢
        omega
      rw [h1]
      obtain ⟨s2, hs2, hn⟩ := ih (s.update (statistics.ofVal v)) (by
        rw [h2]
        simp only [List.length_cons] at hlt
        omega)
      refine ⟨s2, hs2, ?_⟩
      rw [hn, h2]
      simp only [List.length_cons]
      omega

theorem fold_embed_none_n {vs : List Int} {s2 : statistics}
    (h : (vs.map embed).foldl mergeOpt none = some s2) (hlen : vs.length < 2 ^ 64) :
    s2.n = vs.length ∧ 1 ≤ s2.n := by
  cases vs with
  | nil => exact Option.noConfusion h
  | cons v vs =>
      rw [List.map_cons, List.foldl_cons, mergeOpt_none_left] at h
      have he : embed v = some (statistics.ofVal v) := rfl
      rw [he] at h
      obtain ⟨s3, hs3, hn⟩ := fold_embed_n vs (statistics.ofVal v) (by
        have : (statistics.ofVal v).n = 1 := rfl
        simp only [List.length_cons] at hlen
        omega)
      rw [hs3] at h
      injection h with h
      subst h
      have : (statistics.ofVal v).n = 1 := rfl
      simp only [List.length_cons]
      omega

--------------------------------------------------------------------------
-- statsOf of a table built by aggregate lists exactly its lookup.

theorem statsOf_tableUpdate_ne {k0 k : Key} (h : k0 ≠ k) (t : Table) (v : Int) :
    statsOf k (tableUpdate t k0 v) = statsOf k t := by
  induction t with
  | nil => simp [tableUpdate, statsOf, List.filterMap_cons, h]
  | cons e rest ih =>
      obtain ⟨k1, s⟩ := e
      by_cases h1 : k1 = k0
      · subst h1
        rw [show tableUpdate ((k1, s) :: rest) k1 v =
          (k1, s.update (statistics.ofVal v)) :: rest from by simp [tableUpdate]]
        rw [statsOf_cons, statsOf_cons]
        simp only
        rw [if_neg h, if_neg h]
      · rw [show tableUpdate ((k1, s) :: rest) k0 v =
          (k1, s) :: tableUpdate rest k0 v from by simp [tableUpdate, h1]]
        rw [statsOf_cons, statsOf_cons]
        by_cases h2 : k1 = k <;> simp [h2, ih]

theorem statsOf_tableUpdate_self (k : Key) (v : Int) : ∀ (t : Table),
    statsOf k t = (lookupStat t k).toList →
    statsOf k (tableUpdate t k v) = (lookupStat (tableUpdate t k v) k).toList := by
  intro t
  induction t with
  | nil =>
      intro _
      simp [tableUpdate, statsOf, List.filterMap_cons, lookupStat]
  | cons e rest ih =>
      intro hinv
      obtain ⟨k1, s⟩ := e
      by_cases h1 : k1 = k
      · subst h1
        rw [show tableUpdate ((k1, s) :: rest) k1 v =
          (k1, s.update (statistics.ofVal v)) :: rest from by simp [tableUpdate]]
        rw [statsOf_cons] at hinv ⊢
        simp only [eq_self_iff_true, if_true, lookupStat, Option.toList_some] at hinv ⊢
        have hrest : statsOf k1 rest = [] := by
          injection hinv with h1 h2
        rw [hrest]
      · rw [show tableUpdate ((k1, s) :: rest) k v =
          (k1, s) :: tableUpdate rest k v from by simp [tableUpdate, h1]]
        rw [statsOf_cons] at hinv ⊢
        simp only [if_neg h1, lookupStat] at hinv ⊢
        exact ih hinv

theorem statsOf_tableUpdate_toList (t : Table) (k0 : Key) (v : Int) (k : Key)
    (hinv : statsOf k t = (lookupStat t k).toList) :
    statsOf k (tableUpdate t k0 v) = (lookupStat (tableUpdate t k0 v) k).toList := by
  by_cases h : k0 = k
  · subst h
    exact statsOf_tableUpdate_self k0 v t hinv
  · rw [statsOf_tableUpdate_ne h, hinv, lookup_tableUpdate, if_neg h]

theorem statsOf_foldTable_toList (rs : List (Key × Int)) : ∀ (t : Table),
    (∀ k, statsOf k t = (lookupStat t k).toList) →
    ∀ k, statsOf k (rs.foldl (fun t p => tableUpdate t p.1 p.2) t) =
      (lookupStat (rs.foldl (fun t p => tableUpdate t p.1 p.2) t) k).toList := by
  induction rs with
  | nil => intro t hinv k; exact hinv k
  | cons p rs ih =>
      intro t hinv k
      rw [List.foldl_cons]
      exact ih (tableUpdate t p.1 p.2)
        (fun k2 => statsOf_tableUpdate_toList t p.1 p.2 k2 (hinv k2)) k

theorem statsOf_buildTable (rs : List (Key × Int)) (k : Key) :
    statsOf k (buildTable rs) = (lookupStat (buildTable rs) k).toList := by
  unfold buildTable
  exact statsOf_foldTable_toList rs [] (fun _ => rfl) k

--------------------------------------------------------------------------
-- Folding flattened per-table contributions.

theorem foldl_mergeOpt_toList (o : Option statistics) (a : Option statistics) :
    ((o.toList).map some).foldl mergeOpt a = mergeOpt a o := by
  cases o with
  | none => simp [mergeOpt_none_right]
  | some s => rfl

theorem foldl_flatten_toList (Ls : List (Option statistics)) : ∀ (a : Option statistics),
    (((Ls.map Option.toList).flatten).map some).foldl mergeOpt a = Ls.foldl mergeOpt a := by
  induction Ls with
  | nil => intro a; rfl
  | cons o Ls ih =>
      intro a
      rw [List.map_cons, List.flatten_cons, List.map_append, List.foldl_append,
        foldl_mergeOpt_toList, List.foldl_cons, ih]

theorem foldl_embed_flatten (Ls : List (List Int)) : ∀ (a : Option statistics),
    ((Ls.flatten).map embed).foldl mergeOpt a =
      (Ls.map (fun vs => (vs.map embed).foldl mergeOpt none)).foldl mergeOpt a := by
  induction Ls with
  | nil => intro a; rfl
  | cons vs Ls ih =>
      intro a
      have hx : List.foldl mergeOpt a (List.map embed vs) =
          mergeOpt a (List.foldl mergeOpt none (List.map embed vs)) :=
        foldl_mergeOpt_out _ a
      rw [List.flatten_cons, List.map_append, List.foldl_append, ih, List.map_cons,
        List.foldl_cons, hx]

theorem valuesOf_flatten (k : Key) (rss : List (List (Key × Int))) :
    valuesOf k rss.flatten = (rss.map (valuesOf k)).flatten := by
  unfold valuesOf
  rw [List.filterMap_flatten]

theorem statsOf_flatten (k : Key) (Ts : List Table) :
    statsOf k Ts.flatten = (Ts.map (statsOf k)).flatten := by
  unfold statsOf
  rw [List.filterMap_flatten]

--------------------------------------------------------------------------
-- Assembly: the reducer's table agrees pointwise with the sequential one.

theorem mem_valuesOf {k : Key} {rs : List (Key × Int)} {v : Int}
    (hv : v ∈ valuesOf k rs) : ∃ p ∈ rs, p.2 = v := by
  unfold valuesOf at hv
  obtain ⟨p, hp, hpv⟩ := List.mem_filterMap.mp hv
  refine ⟨p, hp, ?_⟩
  by_cases h : p.1 = k
  · rw [if_pos h] at hpv
    injection hpv with hpv
  · rw [if_neg h] at hpv
    exact Option.noConfusion hpv

theorem chunk_lookup {c : List Char} {t : Table} {rs : List (Key × Int)} (k : Key)
    (ha : aggregate c = some t) (hr : recs c = some rs) :
    lookupStat t k = ((valuesOf k rs).map embed).foldl mergeOpt none := by
  rw [aggregate_eq_recs, hr] at ha
  simp at ha
  subst ha
  unfold buildTable
  rw [lookup_foldTable]
  have h0 : lookupStat [] k = none := rfl
  rw [h0]
  apply entryStep_fold_none
  intro v hv
  obtain ⟨p, hp, hpv⟩ := mem_valuesOf hv
  have := recs_val_range c.length c rs (le_refl _) hr p hp
  omega

theorem exists_left_of_forall₂ {α β : Type} {R : α → β → Prop} :
    ∀ {l1 : List α} {l2 : List β}, List.Forall₂ R l1 l2 →
    ∀ b ∈ l2, ∃ a ∈ l1, R a b := by
  intro l1 l2 h
  induction h with
  | nil => intro b hb; simp at hb
  | cons hR hF ih =>
      intro b hb
      rcases List.mem_cons.mp hb with hb | hb
      · subst hb
        exact ⟨_, by simp, hR⟩
      · obtain ⟨a, ha, hab⟩ := ih b hb
        exact ⟨a, List.mem_cons_of_mem _ ha, hab⟩

theorem locals_lookup (k : Key) : ∀ (cs : List (List Char)) (Ts : List Table)
    (rss : List (List (Key × Int))),
    List.Forall₂ (fun c t => aggregate c = some t) cs Ts →
    List.Forall₂ (fun c rs => recs c = some rs) cs rss →
    Ts.map (fun t => lookupStat t k) =
      rss.map (fun rs => ((valuesOf k rs).map embed).foldl mergeOpt none) := by
  intro cs
  induction cs with
  | nil =>
      intro Ts rss h1 h2
      cases h1
      cases h2
      rfl
  | cons c cs ih =>
      intro Ts rss h1 h2
      cases h1 with
      | cons hat h1x =>
          cases h2 with
          | cons hrs h2x =>
              simp only [List.map_cons]
              rw [chunk_lookup k hat hrs, ih _ _ h1x h2x]

theorem reduce_lookup_eq_aggregate (cs : List (List Char)) (T : Table) (Ts : List Table)
    (es : List (Key × statistics))
    (halign : ∀ c ∈ cs.dropLast, c = [] ∨ c.getLast? = some '\n')
    (hseq : aggregate cs.flatten = some T)
    (hloc : List.Forall₂ (fun c t => aggregate c = some t) cs Ts)
    (hperm : es.Perm Ts.flatten) (k : Key) :
    lookupStat (reduce es) k = lookupStat T k := by
  have hseq2 := hseq
  rw [aggregate_eq_recs] at hseq2
  cases hRS : recs cs.flatten with
  | none => rw [hRS] at hseq2; exact Option.noConfusion hseq2
  | some RS =>
      rw [hRS] at hseq2
      simp at hseq2
      obtain ⟨rss, hF2, hRSflat⟩ := recs_flatten_some cs RS halign hRS
      -- the reducer side, per key
      have hL1 : lookupStat (reduce es) k =
          ((statsOf k es).map some).foldl mergeOpt none := by
        unfold reduce
        rw [lookup_foldReduce]
        rfl
      have hperm2 : (statsOf k es).Perm (statsOf k Ts.flatten) :=
        List.Perm.filterMap _ hperm
      have hL2 : ((statsOf k es).map some).foldl mergeOpt none =
          ((statsOf k Ts.flatten).map some).foldl mergeOpt none :=
        foldl_mergeOpt_perm (hperm2.map some) none
      have hTs : ∀ t ∈ Ts, statsOf k t = (lookupStat t k).toList := by
        intro t ht
        obtain ⟨c, _, hct⟩ := exists_left_of_forall₂ hloc t ht
        rw [aggregate_eq_recs] at hct
        obtain ⟨rs, _, hbt⟩ := Option.map_eq_some'.mp hct
        rw [← hbt]
        exact statsOf_buildTable rs k
      have hL3 : statsOf k Ts.flatten =
          ((Ts.map (fun t => lookupStat t k)).map Option.toList).flatten := by
        rw [statsOf_flatten, List.map_map]
        exact congrArg List.flatten (List.map_congr_left hTs)
      have hL4 : ((statsOf k Ts.flatten).map some).foldl mergeOpt none =
          (Ts.map (fun t => lookupStat t k)).foldl mergeOpt none := by
        rw [hL3, foldl_flatten_toList]
      -- the sequential side, per key
      have hR1 : lookupStat T k =
          ((valuesOf k RS).map embed).foldl mergeOpt none := by
        rw [← hseq2]
        unfold buildTable
        rw [lookup_foldTable]
        have h0 : lookupStat [] k = none := rfl
        rw [h0]
        apply entryStep_fold_none
        intro v hv
        obtain ⟨p, hp, hpv⟩ := mem_valuesOf hv
        have := recs_val_range cs.flatten.length cs.flatten RS (le_refl _) hRS p hp
        omega
      have hR2 : ((valuesOf k RS).map embed).foldl mergeOpt none =
          (rss.map (fun rs => ((valuesOf k rs).map embed).foldl mergeOpt none)).foldl
            mergeOpt none := by
        rw [hRSflat, valuesOf_flatten, foldl_embed_flatten, List.map_map]
        rfl
      rw [hL1, hL2, hL4, hR1, hR2, locals_lookup k cs Ts rss hloc hF2]

--------------------------------------------------------------------------
-- Partition loop lemmas.

theorem partitionGo_flatten (k : Nat) : ∀ (input : List Char) (cs : Nat),
    (partitionGo k input cs).flatten = input := by
  induction k with
  | zero => intro input cs; simp [partitionGo]
  | succ m ih =>
      intro input cs
      simp only [partitionGo, List.flatten_cons]
      rw [ih, List.take_append_drop]

theorem partitionGo_length (k : Nat) : ∀ (input : List Char) (cs : Nat),
    (partitionGo k input cs).length = k + 1 := by
  induction k with
  | zero => intro input cs; rfl
  | succ m ih =>
      intro input cs
      simp only [partitionGo, List.length_cons]
      rw [ih]

theorem partitionGo_ne_nil (k : Nat) (input : List Char) (cs : Nat) :
    partitionGo k input cs ≠ [] := by
  cases k <;> simp [partitionGo]

theorem findFrom_sound {s : List Char} {c : Char} {pos i : Nat}
    (h : findFrom s c pos = some i) : i < s.length ∧ s[i]? = some c := by
  unfold findFrom at h
  cases hf : findIdxFrom (List.drop pos s) c with
  | none => rw [hf] at h; exact Option.noConfusion h
  | some j =>
      rw [hf] at h
      simp at h
      subst h
      obtain ⟨hj, hget⟩ := findIdxFrom_sound hf
      rw [List.getElem?_drop] at hget
      rw [List.length_drop] at hj
      constructor
      · omega
      · rw [show j + pos = pos + j from by omega]
        exact hget

theorem getLast?_take {c : Char} : ∀ (s : List Char) (i : Nat), s[i]? = some c →
    (s.take (i + 1)).getLast? = some c := by
  intro s
  induction s with
  | nil => intro i h; simp at h
  | cons x xs ih =>
      intro i h
      cases i with
      | zero =>
          simp only [List.getElem?_cons_zero, Option.some.injEq] at h
          subst h
          rfl
      | succ j =>
          simp only [List.getElem?_cons_succ] at h
          cases xs with
          | nil => simp at h
          | cons y ys =>
              rw [show (x :: y :: ys).take (j + 1 + 1) = x :: (y :: ys).take (j + 1) from rfl]
              have hne : (y :: ys).take (j + 1) ≠ [] := by simp
              cases htk : (y :: ys).take (j + 1) with
              | nil => exact absurd htk hne
              | cons z zs =>
                  rw [List.getLast?_cons_cons]
                  rw [← htk]
                  exact ih j h

theorem partitionGo_dropLast_aligned (k : Nat) : ∀ (input : List Char) (cs : Nat),
    ∀ c ∈ (partitionGo k input cs).dropLast, c = [] ∨ c.getLast? = some '\n' := by
  induction k with
  | zero => intro input cs c hc; simp [partitionGo] at hc
  | succ m ih =>
      intro input cs c hc
      simp only [partitionGo] at hc
      rw [List.dropLast_cons_of_ne_nil (partitionGo_ne_nil m _ cs)] at hc
      rcases List.mem_cons.mp hc with hc | hc
      · subst hc
        unfold chunkEnd
        cases hf : findFrom input '\n' cs with
        | none => left; rfl
        | some i =>
            right
            obtain ⟨hi, hget⟩ := findFrom_sound hf
            exact getLast?_take input i hget
      · exact ih _ cs c hc

--------------------------------------------------------------------------
-- Evaluation lemmas for the fixed-decimal parser.

theorem non_neg_number_eval3 {a c : Char} (ha : isDigitChar a) (hc : isDigitChar c) :
    non_neg_number [a, '.', c] = some (dval a * 10 + dval c) := by
  have h1 := digit_of_isDigitChar ha
  have h2 := digit_of_isDigitChar hc
  simp [non_neg_number, h1, h2]

theorem non_neg_number_eval4 {a b c : Char} (ha : isDigitChar a) (hb : isDigitChar b)
    (hc : isDigitChar c) :
    non_neg_number [a, b, '.', c] = some (dval a * 100 + dval b * 10 + dval c) := by
  have h1 := digit_of_isDigitChar ha
  have h2 := digit_of_isDigitChar hb
  have h3 := digit_of_isDigitChar hc
  simp [non_neg_number, h1, h2, h3]

theorem number_cons_ne {c : Char} {rest : List Char} (h : c ≠ '-') :
    number (c :: rest) = non_neg_number (c :: rest) := by
  unfold number
  split
  · rename_i s rest2 heq
    injection heq with h1 h2
    exact absurd h1 h
  · rfl

theorem isDigitChar_ne_dash {c : Char} (h : isDigitChar c) : c ≠ '-' := by
  intro he
  subst he
  unfold isDigitChar at h
  have h0 : '0'.toNat = 48 := rfl
  have h1 : ('-').toNat = 45 := rfl
  omega

--------------------------------------------------------------------------
-- Counts in aggregate results are positive.

theorem aggregate_count_pos (input : List Char) (T : Table) (k : Key) (s : statistics)
    (ha : aggregate input = some T) (hlen : input.length < 2 ^ 64)
    (hl : lookupStat T k = some s) : 1 ≤ s.n := by
  cases hr : recs input with
  | none =>
      rw [aggregate_eq_recs, hr] at ha
      exact Option.noConfusion ha
  | some rs =>
      rw [chunk_lookup k ha hr] at hl
      have hlen2 : (valuesOf k rs).length < 2 ^ 64 := by
        have h1 : (valuesOf k rs).length ≤ rs.length := List.length_filterMap_le _ _
        have h2 := recs_length_le input.length input rs (le_refl _) hr
        omega
      exact (fold_embed_none_n hl hlen2).2

--------------------------------------------------------------------------
-- Claims.

/-- C1: for every input of well-formed records split at line boundaries
into W ≥ 1 chunks (every non-final chunk empty or ending in a newline),
aggregating each chunk independently with `aggregate` and folding the
local tables' entries into the initially empty global table in any order
(insert an absent key, `statistics::update` a present key) gives, for
every key, exactly the same (min, max, sum, count) as one sequential
`aggregate` pass over the whole input. -/
theorem C1_chunked_merge_eq_sequential (cs : List (List Char)) (T : Table)
    (Ts : List Table) (es : List (Key × statistics))
    (hW : cs ≠ [])
    (halign : ∀ c ∈ cs.dropLast, c = [] ∨ c.getLast? = some '\n')
    (hseq : aggregate cs.flatten = some T)
    (hloc : List.Forall₂ (fun c t => aggregate c = some t) cs Ts)
    (hperm : es.Perm Ts.flatten) :
    ∀ k : Key, lookupStat (reduce es) k = lookupStat T k :=
  fun k => reduce_lookup_eq_aggregate cs T Ts es halign hseq hloc hperm k

theorem C1_witness :
    lookupStat (reduce [(['A'], ⟨34, 34, 34, 1⟩), (['A'], ⟨12, 12, 12, 1⟩)]) ['A'] =
      lookupStat [(['A'], ⟨12, 34, 46, 2⟩)] ['A'] :=
  C1_chunked_merge_eq_sequential
    [['A', ';', '1', '.', '2', '\n'], ['A', ';', '3', '.', '4']]
    [(['A'], ⟨12, 34, 46, 2⟩)]
    [[(['A'], ⟨12, 12, 12, 1⟩)], [(['A'], ⟨34, 34, 34, 1⟩)]]
    [(['A'], ⟨34, 34, 34, 1⟩), (['A'], ⟨12, 12, 12, 1⟩)]
    (by decide) (by decide) (by decide)
    (List.Forall₂.cons (by decide) (List.Forall₂.cons (by decide) List.Forall₂.nil))
    (by decide) ['A']

/-- C2: `statistics::update`, as a binary merge, is commutative and
associative (min of mins, max of maxes, sum of sums, sum of counts), and
the default-initialized statistics (min = 2^63 − 1 the maximum
representable int64, max = −2^63 the minimum representable, sum = 0,
count = 0) is a left and right identity on every machine-representable
statistics value. -/
theorem C2_update_comm_assoc_identity (a b c s : statistics) (hs : s.inRange) :
    a.update b = b.update a ∧
    (a.update b).update c = a.update (b.update c) ∧
    statistics.default.update s = s ∧
    s.update statistics.default = s :=
  ⟨statistics.update_comm a b, statistics.update_assoc a b c,
    statistics.default_update s hs, statistics.update_default s hs⟩

theorem C2_witness :
    (statistics.ofVal 5).inRange ∧
    statistics.default.update (statistics.ofVal 5) = statistics.ofVal 5 :=
  ⟨by decide,
    (C2_update_comm_assoc_identity (statistics.ofVal 1) (statistics.ofVal 2)
      (statistics.ofVal 3) (statistics.ofVal 5) (by decide)).2.2.1⟩

/-- C3: on every token of the grammar `['-'] D+ '.' D` with one or two
integer digits and one fractional digit, `number` returns exactly the
token's decimal value scaled by 10, a leading '-' negating the parsed
magnitude; in particular number "-3.4" = -34, number "12.3" = 123 and
number "0.0" = 0. -/
theorem C3_number_on_grammar (neg : Bool) (ds : List Char) (f : Char)
    (hlen : ds.length = 1 ∨ ds.length = 2)
    (hds : ∀ c ∈ ds, isDigitChar c) (hf : isDigitChar f) :
    number ((if neg then ['-'] else []) ++ ds ++ ['.', f]) =
      some ((if neg then -1 else 1) * (10 * digitsVal ds + dval f)) ∧
    number ['-', '3', '.', '4'] = some (-34) ∧
    number ['1', '2', '.', '3'] = some 123 ∧
    number ['0', '.', '0'] = some 0 := by
  refine ⟨?_, by decide, by decide, by decide⟩
  rcases hlen with h1 | h2
  · obtain ⟨d, rfl⟩ := List.length_eq_one.mp h1
    have hd := hds d (by simp)
    cases neg with
    | false =>
        show number (d :: '.' :: [f]) = some (1 * (10 * digitsVal [d] + dval f))
        rw [number_cons_ne (isDigitChar_ne_dash hd), non_neg_number_eval3 hd hf]
        simp only [digitsVal, dval, List.foldl_cons, List.foldl_nil, Option.some.injEq]
        ring
    | true =>
        show number ('-' :: d :: '.' :: [f]) = some (-1 * (10 * digitsVal [d] + dval f))
        rw [show number ('-' :: d :: '.' :: [f]) =
          (non_neg_number [d, '.', f]).map Neg.neg from rfl]
        rw [non_neg_number_eval3 hd hf]
        simp only [digitsVal, dval, List.foldl_cons, List.foldl_nil, Option.map_some',
          Option.some.injEq]
        ring
  · obtain ⟨d1, d2, rfl⟩ := List.length_eq_two.mp h2
    have hd1 := hds d1 (by simp)
    have hd2 := hds d2 (by simp)
    cases neg with
    | false =>
        show number (d1 :: d2 :: '.' :: [f]) = some (1 * (10 * digitsVal [d1, d2] + dval f))
        rw [number_cons_ne (isDigitChar_ne_dash hd1), non_neg_number_eval4 hd1 hd2 hf]
        simp only [digitsVal, dval, List.foldl_cons, List.foldl_nil, Option.some.injEq]
        ring
    | true =>
        show number ('-' :: d1 :: d2 :: '.' :: [f]) =
          some (-1 * (10 * digitsVal [d1, d2] + dval f))
        rw [show number ('-' :: d1 :: d2 :: '.' :: [f]) =
          (non_neg_number [d1, d2, '.', f]).map Neg.neg from rfl]
        rw [non_neg_number_eval4 hd1 hd2 hf]
        simp only [digitsVal, dval, List.foldl_cons, List.foldl_nil, Option.map_some',
          Option.some.injEq]
        ring

theorem C3_witness :
    number ((if true then ['-'] else []) ++ ['3'] ++ ['.', '4']) =
      some ((if true then -1 else 1) * (10 * digitsVal ['3'] + dval '4')) :=
  (C3_number_on_grammar true ['3'] '4' (Or.inl rfl) (by decide) (by decide)).1

/-- C4: for every worker count W ≥ 1 and every input, the W chunk
sub-ranges produced by the partition loop of main, concatenated in
production order, are exactly the original byte range: no byte is
omitted, duplicated or assigned to two chunks. -/
theorem C4_partition_coverage (input : List Char) (w : Nat) (hW : 1 ≤ w) :
    (partition input w).flatten = input ∧ (partition input w).length = w := by
  constructor
  · unfold partition
    exact partitionGo_flatten (w - 1) input (input.length / w)
  · unfold partition
    rw [partitionGo_length]
    omega

theorem C4_witness :
    (partition ['a', '\n', 'b'] 2).flatten = ['a', '\n', 'b'] ∧
    (partition ['a', '\n', 'b'] 2).length = 2 :=
  C4_partition_coverage ['a', '\n', 'b'] 2 (by decide)

/-- C5 counterexample: on the input "ab" (which has no newline) with
W = 2, the single non-final chunk produced by the partition loop is
empty — `find_first_of` returns npos and `npos + 1` wraps to 0 — so that
chunk neither ends in a newline nor absorbs the remaining bytes "ab"; the
remainder goes to the final chunk instead, refuting the claim as
stated. -/
theorem C5_counterexample :
    partition ['a', 'b'] 2 = [[], ['a', 'b']] ∧
    ¬(([] : List Char).getLast? = some '\n' ∨ ([] : List Char) = ['a', 'b']) := by
  exact ⟨by decide, by decide⟩

/-- C5 amended: for W ≥ 2, each of the first W−1 chunks is either empty
or has a newline as its last byte; when the forward newline search from
the target offset finds no newline, `npos + 1` wraps to 0, that chunk is
produced empty, and the remaining bytes fall through to the final chunk
(the failure is never fatal). -/
theorem C5_partition_alignment (input : List Char) (w : Nat) (hW : 2 ≤ w) :
    (∀ c ∈ (partition input w).dropLast, c = [] ∨ c.getLast? = some '\n') ∧
    (findFrom input '\n' (input.length / w) = none →
      (partition input w).head? = some []) := by
  constructor
  · unfold partition
    exact partitionGo_dropLast_aligned (w - 1) input (input.length / w)
  · intro hnone
    unfold partition
    cases hw : w - 1 with
    | zero => omega
    | succ m =>
        simp only [partitionGo, chunkEnd, hnone, List.take_zero, List.head?_cons]

theorem C5_witness :
    (partition ['a', '\n', 'b'] 2).dropLast = [['a', '\n']] ∧
    (['a', '\n'] = [] ∨ (['a', '\n'] : List Char).getLast? = some '\n') :=
  ⟨by decide,
    (C5_partition_alignment ['a', '\n', 'b'] 2 (by decide)).1 ['a', '\n'] (by decide)⟩

theorem digits_one {a : Char} (ha : isDigitChar a) : ∀ c ∈ [a], isDigitChar c := by
  intro c hc
  rw [List.mem_singleton] at hc
  subst hc
  exact ha

theorem digits_two {a b : Char} (ha : isDigitChar a) (hb : isDigitChar b) :
    ∀ c ∈ [a, b], isDigitChar c := by
  intro c hc
  rcases List.mem_cons.mp hc with h | h
  · subst h
    exact ha
  · rw [List.mem_singleton] at h
    subst h
    exact hb

/-- C6: every token on which `number` succeeds matches the fixed-decimal
grammar `['-'] D+ '.' D` with one or two integer digits and one
fractional digit — so every non-matching token (no '+' sign, a non-digit
byte in a digit position, a misplaced decimal point, a length outside
{3,4,5}) raises a format error; in particular "1.23", "abc", "", "1." and
"+1.2" are all rejected. -/
theorem C6_number_rejects_nongrammar :
    (∀ (s : List Char) (v : Int), number s = some v → specGrammar s) ∧
    number ['1', '.', '2', '3'] = none ∧
    number ['a', 'b', 'c'] = none ∧
    number [] = none ∧
    number ['1', '.'] = none ∧
    number ['+', '1', '.', '2'] = none := by
  refine ⟨?_, by decide, by decide, by decide, by decide, by decide⟩
  intro s v h
  rcases s with _ | ⟨c, rest⟩
  · rw [show number [] = non_neg_number [] from rfl] at h
    exact Option.noConfusion h
  · by_cases hc : c = '-'
    · subst hc
      rw [show number ('-' :: rest) = (non_neg_number rest).map Neg.neg from rfl] at h
      cases hn : non_neg_number rest with
      | none => rw [hn] at h; exact Option.noConfusion h
      | some w =>
          rcases non_neg_number_shape hn with ⟨a, b, hrest, ha, hb, _⟩ |
            ⟨a, b, c2, hrest, ha, hb, hc2, _⟩
          · subst hrest
            exact ⟨true, [a], b, Or.inl rfl, digits_one ha, hb, rfl⟩
          · subst hrest
            exact ⟨true, [a, b], c2, Or.inr rfl, digits_two ha hb, hc2, rfl⟩
    · rw [number_cons_ne hc] at h
      rcases non_neg_number_shape h with ⟨a, b, hs, ha, hb, _⟩ |
        ⟨a, b, c2, hs, ha, hb, hc2, _⟩
      · rw [hs]
        exact ⟨false, [a], b, Or.inl rfl, digits_one ha, hb, rfl⟩
      · rw [hs]
        exact ⟨false, [a, b], c2, Or.inr rfl, digits_two ha hb, hc2, rfl⟩

theorem C6_witness : number ['1', '.', '2'] = some 12 ∧ specGrammar ['1', '.', '2'] :=
  ⟨by decide, C6_number_rejects_nongrammar.1 ['1', '.', '2'] 12 (by decide)⟩

/-- C7: on a line `key ++ ';' ++ rest` (first semicolon shown), `record`
returns the bytes strictly before the first ';' paired with
`number rest`, so it fails exactly when the value token is malformed; and
on a line with no ';' byte at all it fails. -/
theorem C7_record_splits (k rest : List Char) (hk : ';' ∉ k) :
    record (k ++ ';' :: rest) = (number rest).map (fun v => (k, v)) ∧
    record k = none :=
  ⟨record_append hk rest, record_no_semi hk⟩

theorem C7_witness :
    record (['A'] ++ ';' :: ['1', '.', '2']) = some (['A'], 12) ∧
    record ['A'] = none := by
  have h := C7_record_splits ['A'] ['1', '.', '2'] (by decide)
  exact ⟨by rw [h.1]; decide, h.2⟩

/-- C8: `first_line` splits at the first newline, returning the bytes
before it as the line and the bytes after it as the remainder; with no
newline the line is the whole range and the remainder is empty, and the
aggregate loop hands such a final unterminated line to the record
parser. -/
theorem C8_first_line_splits (l rest : List Char) (t : Table) (hl : '\n' ∉ l) :
    first_line (l ++ '\n' :: rest) = (l, rest) ∧
    first_line l = (l, []) ∧
    (l ≠ [] → aggregateGo l.length l t =
      (record l).map (fun r => tableUpdate t r.1 r.2)) := by
  refine ⟨first_line_append hl rest, first_line_no_newline hl, ?_⟩
  intro hne
  cases l with
  | nil => exact absurd rfl hne
  | cons c cs =>
      show aggregateGo (cs.length + 1) (c :: cs) t = _
      simp only [aggregateGo]
      rw [first_line_no_newline hl]
      cases hr : record (c :: cs) with
      | none => rfl
      | some r =>
          obtain ⟨rk, rv⟩ := r
          simp [aggregateGo]

theorem C8_witness :
    first_line (['A', ';', '1', '.', '2'] ++ '\n' :: ['B']) =
      (['A', ';', '1', '.', '2'], ['B']) :=
  (C8_first_line_splits ['A', ';', '1', '.', '2'] ['B'] [] (by decide)).1

/-- C9: the constructor models evaluated on failing system calls.  A
failing `open` (return −1) is caught and raises the error text, but a
failing `mmap` returns MAP_FAILED = (void *)−1, while the code checks
`if (!data_)` — the null pointer — so construction succeeds with an
invalid mapping instead of raising the fatal error the claim requires. -/
theorem C9_mmap_failure_not_fatal :
    mmap_file_new 0 4096 (-1) "Cannot allocate memory" = Except.ok (-1, 4096) ∧
    file_descr_new (-1) "No such file or directory" =
      Except.error "No such file or directory" := by
  constructor <;> rfl

/-- C10: every entry of a table produced by `aggregate`, and every entry
of the reducer's global table built from chunked local tables, carries a
count n ≥ 1 (given the size_t bound on the input length), so the mean
`sum / 10.0 / n` printed by the report never divides by zero. -/
theorem C10_counts_positive :
    (∀ (input : List Char) (T : Table) (k : Key) (s : statistics),
      aggregate input = some T → input.length < 2 ^ 64 →
      lookupStat T k = some s → 1 ≤ s.n) ∧
    (∀ (cs : List (List Char)) (T : Table) (Ts : List Table)
      (es : List (Key × statistics)) (k : Key) (s : statistics),
      (∀ c ∈ cs.dropLast, c = [] ∨ c.getLast? = some '\n') →
      aggregate cs.flatten = some T →
      List.Forall₂ (fun c t => aggregate c = some t) cs Ts →
      es.Perm Ts.flatten → cs.flatten.length < 2 ^ 64 →
      lookupStat (reduce es) k = some s → 1 ≤ s.n) := by
  constructor
  · intro input T k s ha hlen hl
    exact aggregate_count_pos input T k s ha hlen hl
  · intro cs T Ts es k s halign hseq hloc hperm hlen hl
    rw [reduce_lookup_eq_aggregate cs T Ts es halign hseq hloc hperm k] at hl
    exact aggregate_count_pos cs.flatten T k s hseq hlen hl

theorem C10_witness :
    lookupStat [(['A'], ⟨12, 12, 12, 1⟩)] ['A'] = some ⟨12, 12, 12, 1⟩ ∧
    1 ≤ (⟨12, 12, 12, 1⟩ : statistics).n :=
  ⟨by decide,
    C10_counts_positive.1 ['A', ';', '1', '.', '2'] [(['A'], ⟨12, 12, 12, 1⟩)]
      ['A'] ⟨12, 12, 12, 1⟩ (by decide) (by norm_num) (by decide)⟩

end Onebrc
